import Mathlib

/-!
Verification of the advanced lexer of `src/lexer-advanced.cpp`
(repository albeva/compiler-tutorial).

The scanner is embedded shallowly:
* the source string is a `List Char`, the cursor fields `m_pos`/`m_start`
  are `Nat` indices;
* the character-class helpers `isalpha`/`isnumber`/`isalnum` are the C
  library predicates restricted to ASCII (the behaviour the code relies
  on);
* the three inner `while` loops (line-comment skip, identifier run,
  digit run) are expressed as end-position computations via `takeWhile`
  so that every definition is executable; their defining loop recurrences
  are proved below;
* the scanning loop of `Lexer::next` is `nextAuxF`, written with an
  explicit fuel argument so that it is structurally recursive (hence
  computable by the kernel); `s.length - pos` iterations always suffice
  because every iteration strictly advances the cursor, and `nextAux`
  instantiates the fuel that way.  The one-step unfolding theorem
  `nextAux_eq` recovers exactly the loop of the C++ code.
-/

namespace AdvLexer

/-- The `TokenType` enumeration of `src/lexer-advanced.cpp` (lines 23-57):
one entry per distinct token, plus the control entries `Invalid` and
`EndOfInput`. -/
inductive TokenType where
  | Invalid
  | Identifier
  | Assign
  | Multiply
  | Divide
  | Plus
  | Minus
  | Greater
  | GreaterEqual
  | Equal
  | LesserEqual
  | Lesser
  | BraceOpen
  | BraceClose
  | ParenOpen
  | ParenClose
  | Comma
  | Colon
  | SemiColon
  | IntegerLiteral
  | FloatLiteral
  | StringLiteral
  | Int
  | Double
  | String
  | Function
  | Return
  | If
  | Else
  | For
  | Continue
  | Break
  | EndOfInput
deriving DecidableEq, Repr

/-- The keyword lookup table `keywordMap` of `src/lexer-advanced.cpp`
(lines 98-109): it matches a keyword string to a `TokenType`.  The C++
`std::unordered_map` with exact (case-sensitive) string keys is modelled
as an association list queried with `List.lookup`. -/
def keywordMap : List (String × TokenType) :=
  [ ("int", TokenType.Int),
    ("double", TokenType.Double),
    ("string", TokenType.String),
    ("function", TokenType.Function),
    ("return", TokenType.Return),
    ("if", TokenType.If),
    ("else", TokenType.Else),
    ("for", TokenType.For),
    ("continue", TokenType.Continue),
    ("break", TokenType.Break) ]

/-- The `Token` record of `src/lexer-advanced.cpp` (lines 114-118).
Every `return` site of the scanner uses aggregate initialization with at
most the first two members, so the remaining `int line, column` members
are value-initialized to `0`; the Lean default field values model that. -/
structure Token where
  type : TokenType
  value : String
  line : Int := 0
  column : Int := 0
deriving DecidableEq, Repr

/-- C library `isalpha` for the "C" locale on ASCII input, as used on
line 167 of `src/lexer-advanced.cpp`. -/
def isalpha (c : Char) : Bool :=
  ('a' ≤ c && c ≤ 'z') || ('A' ≤ c && c ≤ 'Z')

/-- C library `isnumber` (decimal digit test) as used on lines 170 and
271 of `src/lexer-advanced.cpp`. -/
def isnumber (c : Char) : Bool :=
  '0' ≤ c && c ≤ '9'

/-- C library `isalnum` as used on line 254 of `src/lexer-advanced.cpp`. -/
def isalnum (c : Char) : Bool :=
  isalpha c || isnumber c

/-- The substring constructor `string(m_source, a, b - a)` used at the
token-emission sites of `src/lexer-advanced.cpp`: the characters of the
source from index `a` (inclusive) to index `b` (exclusive). -/
def strSlice (s : List Char) (a b : Nat) : List Char :=
  (s.drop a).take (b - a)

/-- Final value of `m_pos` after the comment-skipping loop
`while (++m_pos < len && m_source[m_pos] != chr-LF);` of line 162 of
`src/lexer-advanced.cpp`, entered with `m_pos = p`: the pre-increment
first moves to `p + 1`, then the loop runs past every further
non-newline character.  (Loop recurrence proved in
`lineCommentEnd_rec`.) -/
def lineCommentEnd (s : List Char) (p : Nat) : Nat :=
  p + 1 + ((s.drop (p + 1)).takeWhile (fun c => c != '\n')).length

/-- Final value of `m_pos` after the identifier loop
`while (m_pos < m_source.length() && isalnum(m_source[m_pos])) m_pos++;`
of line 254 of `src/lexer-advanced.cpp`, entered with `m_pos = p`.
(Loop recurrence proved in `alnumEnd_rec`.) -/
def alnumEnd (s : List Char) (p : Nat) : Nat :=
  p + ((s.drop p).takeWhile isalnum).length

/-- Final value of `m_pos` after the number loop
`while (m_pos < m_source.length() && isnumber(m_source[m_pos])) m_pos++;`
of line 271 of `src/lexer-advanced.cpp`, entered with `m_pos = p`.
(Loop recurrence proved in `digitEnd_rec`.) -/
def digitEnd (s : List Char) (p : Nat) : Nat :=
  p + ((s.drop p).takeWhile isnumber).length

/-- `Lexer::identifier` (lines 250-263 of `src/lexer-advanced.cpp`).
It reads from the member state `m_source = s`, `m_pos = pos`,
`m_start = start` and returns the token together with the new `m_pos`:
scan the alphanumeric run, build the lexeme `[m_start, m_pos)`, look it
up in `keywordMap`, and classify as the keyword kind on a hit or as
`Identifier` otherwise (the `find`/`end()` check of the C++ code is
`Option.getD` on the lookup result). -/
def Lexer.identifier (s : List Char) (pos start : Nat) : Token × Nat :=
  let e := alnumEnd s pos
  let lexeme := String.mk (strSlice s start e)
  ({ type := (List.lookup lexeme keywordMap).getD TokenType.Identifier, value := lexeme }, e)

/-- `Lexer::number` (lines 267-275 of `src/lexer-advanced.cpp`), with the
same state-passing convention as `Lexer.identifier`: scan the digit run
and return an `IntegerLiteral` token for the lexeme `[m_start, m_pos)`. -/
def Lexer.number (s : List Char) (pos start : Nat) : Token × Nat :=
  let e := digitEnd s pos
  ({ type := TokenType.IntegerLiteral, value := String.mk (strSlice s start e) }, e)

/-- The operator `switch (ch)` of lines 175-239 of
`src/lexer-advanced.cpp`.  `pos1` is the value of `m_pos` at the switch
(one past the dispatched character); the result is the chosen
`TokenType` together with the final `m_pos` (incremented once more by
the two-character cases `==`, `>=`, `<=`). -/
def opSwitch (ch nextc : Char) (pos1 : Nat) : TokenType × Nat :=
  if ch = '=' then
    (if nextc = '=' then (TokenType.Equal, pos1 + 1) else (TokenType.Assign, pos1))
  else if ch = '*' then (TokenType.Multiply, pos1)
  else if ch = '/' then (TokenType.Divide, pos1)
  else if ch = '+' then (TokenType.Plus, pos1)
  else if ch = '-' then (TokenType.Minus, pos1)
  else if ch = '>' then
    (if nextc = '=' then (TokenType.GreaterEqual, pos1 + 1) else (TokenType.Greater, pos1))
  else if ch = '<' then
    (if nextc = '=' then (TokenType.LesserEqual, pos1 + 1) else (TokenType.Lesser, pos1))
  else if ch = '\x7b' then (TokenType.BraceOpen, pos1)
  else if ch = '\x7d' then (TokenType.BraceClose, pos1)
  else if ch = '(' then (TokenType.ParenOpen, pos1)
  else if ch = ')' then (TokenType.ParenClose, pos1)
  else if ch = ',' then (TokenType.Comma, pos1)
  else if ch = ':' then (TokenType.Colon, pos1)
  else if ch = ';' then (TokenType.SemiColon, pos1)
  else (TokenType.Invalid, pos1)

/-- The scanning loop `while (m_pos < len) ...` of `Lexer::next`
(lines 142-244 of `src/lexer-advanced.cpp`), operating on the state
`m_source = s`, `m_pos = pos`, `m_start = start` and returning
`(token, new m_pos, new m_start)`.

Each loop iteration reads `ch = m_source[m_pos]` and the lookahead
`next = m_pos + 1 < m_source.length() ? m_source[m_pos + 1] : chr-NUL`
(modelled by `List.getD` with default `Char.ofNat 0`), sets
`m_start = m_pos` and increments `m_pos`, then either skips (whitespace
and `//` comments) and retries, or emits one token via the identifier
scan, the number scan, or the operator switch.  When `m_pos` reaches the
end, the `EndOfInput` sentinel with empty lexeme is returned and the
state is left untouched.

The extra `fuel` argument only bounds the number of loop iterations so
that the recursion is structural; since every iteration strictly
increases `pos`, `s.length - pos` iterations always reach a `return`,
and `nextAux` below supplies exactly that fuel
(fuel-independence is proved in `nextAuxF_irrel`). -/
def nextAuxF : Nat → List Char → Nat → Nat → Token × Nat × Nat
  | 0, _, pos, start => ({ type := TokenType.EndOfInput, value := "" }, pos, start)
  | fuel + 1, s, pos, start =>
    if h : pos < s.length then
      let ch := s[pos]
      let nextc := s.getD (pos + 1) '\x00'
      if ch = ' ' ∨ ch = '\n' ∨ ch = '\r' ∨ ch = '\t' then
        nextAuxF fuel s (pos + 1) pos
      else if ch = '/' ∧ pos + 1 < s.length ∧ nextc = '/' then
        nextAuxF fuel s (lineCommentEnd s (pos + 1)) pos
      else if isalpha ch then
        let r := Lexer.identifier s (pos + 1) pos
        (r.1, r.2, pos)
      else if isnumber ch then
        let r := Lexer.number s (pos + 1) pos
        (r.1, r.2, pos)
      else
        let td := opSwitch ch nextc (pos + 1)
        ({ type := td.1, value := String.mk (strSlice s pos td.2) }, td.2, pos)
    else
      ({ type := TokenType.EndOfInput, value := "" }, pos, start)

/-- The scanning loop of `Lexer::next` with adequate fuel (see
`nextAuxF`); `nextAux_eq` below proves the intended one-step unfolding. -/
def nextAux (s : List Char) (pos start : Nat) : Token × Nat × Nat :=
  nextAuxF (s.length - pos) s pos start

/-- The member state of the `Lexer` class (lines 277-284 of
`src/lexer-advanced.cpp`): the source buffer and the two cursor fields. -/
structure LexerState where
  m_source : List Char
  m_pos : Nat
  m_start : Nat
deriving DecidableEq, Repr

/-- `Lexer::next` (lines 132-245 of `src/lexer-advanced.cpp`): the early
`return` for an empty source, then the scanning loop; returns the token
and the updated lexer state. -/
def Lexer.next (st : LexerState) : Token × LexerState :=
  if st.m_source.length = 0 then
    ({ type := TokenType.EndOfInput, value := "" }, st)
  else
    let r := nextAux st.m_source st.m_pos st.m_start
    (r.1, { m_source := st.m_source, m_pos := r.2.1, m_start := r.2.2 })

/-- The `Lexer` constructor (line 128 of `src/lexer-advanced.cpp`):
`m_source(source), m_pos(0), m_start(0)`. -/
def Lexer.init (source : String) : LexerState :=
  { m_source := source.data, m_pos := 0, m_start := 0 }

/-- The lexer state after `n` calls of `Lexer::next` starting from `st`. -/
def iterState : LexerState → Nat → LexerState
  | st, 0 => st
  | st, n + 1 => iterState (Lexer.next st).2 n

/-- The token returned by the `(n+1)`-st call of `Lexer::next` starting
from state `st` (`n = 0` is the first call). -/
def tokenAt (st : LexerState) (n : Nat) : Token :=
  (Lexer.next (iterState st n)).1

/-- The token sequence produced by repeated `Lexer::next` calls, up to
and including the first `EndOfInput` sentinel; `fuel` bounds the number
of calls (each token consumes at least one character, so
`length + 1` calls always reach the sentinel). -/
def scanFuel : Nat → LexerState → List Token
  | 0, _ => []
  | fuel + 1, st =>
    let r := Lexer.next st
    if r.1.type = TokenType.EndOfInput then [r.1] else r.1 :: scanFuel fuel r.2

/-- The complete token sequence of a source string, ending with the
`EndOfInput` sentinel. -/
def scan (source : String) : List Token :=
  scanFuel (source.data.length + 1) (Lexer.init source)

/-- The per-call decomposition of the source consumed by each
`Lexer::next` call starting at cursor `pos`: the call moves the cursor
to some `pos2` and emits a token whose lexeme is the tail
`[pos2 - lexeme-length, pos2)` of the consumed span `[pos, pos2)`; the
remaining head `[pos, pos2 - lexeme-length)` is exactly the whitespace
and comment text skipped by the call.  Each list entry is the pair
(skipped span, emitted lexeme), and the run ends with the entry of the
first `EndOfInput` call (whose lexeme is empty and whose skipped span is
any trailing whitespace or comment). -/
def piecesFuel : Nat → List Char → Nat → Nat → List (List Char × List Char)
  | 0, _, _, _ => []
  | fuel + 1, s, pos, start =>
    let r := nextAux s pos start
    let piece := (strSlice s pos (r.2.1 - r.1.value.length), r.1.value.data)
    if r.1.type = TokenType.EndOfInput then [piece]
    else piece :: piecesFuel fuel s r.2.1 r.2.2

/-- In-order concatenation of all skipped spans and lexemes of a piece
list. -/
def concatPieces (l : List (List Char × List Char)) : List Char :=
  l.foldr (fun p acc => p.1 ++ p.2 ++ acc) []

/-! ## Basic facts about slices, `getD`, and the loop end positions -/

lemma getD_eq_getElem {s : List Char} {i : Nat} (h : i < s.length) (d : Char) :
    s.getD i d = s[i] := by
  simp [List.getD_eq_getElem?_getD, List.getElem?_eq_getElem h]

lemma getD_eq_default {s : List Char} {i : Nat} (h : s.length ≤ i) (d : Char) :
    s.getD i d = d := by
  simp [List.getD_eq_getElem?_getD, List.getElem?_eq_none h]

lemma strSlice_length {s : List Char} {a b : Nat} (hab : a ≤ b) (hb : b ≤ s.length) :
    (strSlice s a b).length = b - a := by
  simp only [strSlice, List.length_take, List.length_drop]
  omega

lemma strSlice_append {s : List Char} {a b c : Nat} (hab : a ≤ b) (hbc : b ≤ c) :
    strSlice s a b ++ strSlice s b c = strSlice s a c := by
  have h1 : c - a = (b - a) + (c - b) := by omega
  simp only [strSlice]
  rw [h1, List.take_add, List.drop_drop]
  have h2 : a + (b - a) = b := by omega
  rw [h2]

lemma strSlice_self (s : List Char) (a : Nat) : strSlice s a a = [] := by
  simp [strSlice]

lemma strSlice_one {s : List Char} {pos : Nat} (h : pos < s.length) :
    strSlice s pos (pos + 1) = [s[pos]] := by
  simp only [strSlice, Nat.add_sub_cancel_left]
  rw [List.drop_eq_getElem_cons h]
  rfl

lemma strSlice_two {s : List Char} {pos : Nat} (h : pos + 1 < s.length) :
    strSlice s pos (pos + 2) = [s[pos], s[pos + 1]] := by
  simp only [strSlice, Nat.add_sub_cancel_left]
  rw [List.drop_eq_getElem_cons (show pos < s.length by omega),
    List.drop_eq_getElem_cons h]
  rfl

lemma lineCommentEnd_ge (s : List Char) (p : Nat) : p + 1 ≤ lineCommentEnd s p :=
  Nat.le_add_right _ _

lemma lineCommentEnd_le {s : List Char} {p : Nat} (h : p < s.length) :
    lineCommentEnd s p ≤ s.length := by
  have h1 := (List.takeWhile_sublist (l := s.drop (p + 1)) (fun c => c != '\n')).length_le
  rw [List.length_drop] at h1
  unfold lineCommentEnd
  omega

lemma alnumEnd_ge (s : List Char) (p : Nat) : p ≤ alnumEnd s p :=
  Nat.le_add_right _ _

lemma alnumEnd_le {s : List Char} {p : Nat} (h : p ≤ s.length) :
    alnumEnd s p ≤ s.length := by
  have h1 := (List.takeWhile_sublist (l := s.drop p) isalnum).length_le
  rw [List.length_drop] at h1
  unfold alnumEnd
  omega

lemma digitEnd_ge (s : List Char) (p : Nat) : p ≤ digitEnd s p :=
  Nat.le_add_right _ _

lemma digitEnd_le {s : List Char} {p : Nat} (h : p ≤ s.length) :
    digitEnd s p ≤ s.length := by
  have h1 := (List.takeWhile_sublist (l := s.drop p) isnumber).length_le
  rw [List.length_drop] at h1
  unfold digitEnd
  omega

/-- `digitEnd` satisfies the recurrence of the loop
`while (m_pos < m_source.length() && isnumber(m_source[m_pos])) m_pos++;`. -/
lemma digitEnd_rec (s : List Char) (p : Nat) :
    digitEnd s p =
      if h : p < s.length then (if isnumber s[p] then digitEnd s (p + 1) else p) else p := by
  by_cases h : p < s.length
  · rw [dif_pos h]
    have hd : s.drop p = s[p] :: s.drop (p + 1) := List.drop_eq_getElem_cons h
    by_cases hn : isnumber s[p]
    · rw [if_pos hn]
      unfold digitEnd
      rw [hd, List.takeWhile_cons_of_pos hn]
      simp only [List.length_cons]
      omega
    · rw [if_neg hn]
      unfold digitEnd
      rw [hd, List.takeWhile_cons_of_neg hn]
      simp
  · rw [dif_neg h]
    unfold digitEnd
    rw [List.drop_of_length_le (by omega)]
    simp

/-- `alnumEnd` satisfies the recurrence of the loop
`while (m_pos < m_source.length() && isalnum(m_source[m_pos])) m_pos++;`. -/
lemma alnumEnd_rec (s : List Char) (p : Nat) :
    alnumEnd s p =
      if h : p < s.length then (if isalnum s[p] then alnumEnd s (p + 1) else p) else p := by
  by_cases h : p < s.length
  · rw [dif_pos h]
    have hd : s.drop p = s[p] :: s.drop (p + 1) := List.drop_eq_getElem_cons h
    by_cases hn : isalnum s[p]
    · rw [if_pos hn]
      unfold alnumEnd
      rw [hd, List.takeWhile_cons_of_pos hn]
      simp only [List.length_cons]
      omega
    · rw [if_neg hn]
      unfold alnumEnd
      rw [hd, List.takeWhile_cons_of_neg hn]
      simp
  · rw [dif_neg h]
    unfold alnumEnd
    rw [List.drop_of_length_le (by omega)]
    simp

/-- `lineCommentEnd` satisfies the recurrence of the loop
`while (++m_pos < len && m_source[m_pos] != chr-LF);`. -/
lemma lineCommentEnd_rec (s : List Char) (p : Nat) :
    lineCommentEnd s p =
      if h : p + 1 < s.length then
        (if s[p + 1] = '\n' then p + 1 else lineCommentEnd s (p + 1))
      else p + 1 := by
  by_cases h : p + 1 < s.length
  · rw [dif_pos h]
    have hd := List.drop_eq_getElem_cons h
    by_cases hn : s[p + 1] = '\n'
    · rw [if_pos hn]
      unfold lineCommentEnd
      rw [hd, List.takeWhile_cons_of_neg (by simp [hn])]
      simp
    · rw [if_neg hn]
      unfold lineCommentEnd
      rw [hd, List.takeWhile_cons_of_pos (by simp [hn])]
      simp only [List.length_cons]
      omega
  · rw [dif_neg h]
    unfold lineCommentEnd
    rw [List.drop_of_length_le (by omega)]
    simp

/-- All characters inside the run consumed by the number loop are
decimal digits. -/
lemma digitEnd_all (s : List Char) :
    ∀ (k p : Nat), s.length - p ≤ k → ∀ i, p ≤ i → i < digitEnd s p →
      isnumber (s.getD i ' ') = true := by
  intro k
  induction k with
  | zero =>
    intro p hk i hpi hie
    rw [digitEnd_rec, dif_neg (by omega : ¬ p < s.length)] at hie
    omega
  | succ k ih =>
    intro p hk i hpi hie
    rw [digitEnd_rec] at hie
    by_cases hp : p < s.length
    · rw [dif_pos hp] at hie
      by_cases hn : isnumber s[p]
      · rw [if_pos hn] at hie
        rcases Nat.eq_or_lt_of_le hpi with heq | hlt
        · rw [← heq, getD_eq_getElem hp]
          exact hn
        · exact ih (p + 1) (by omega) i (by omega) hie
      · rw [if_neg hn] at hie
        omega
    · rw [dif_neg hp] at hie
      omega

/-- The character at the end position of the number loop (when it is in
bounds) is not a decimal digit: the consumed digit run is maximal. -/
lemma digitEnd_boundary (s : List Char) :
    ∀ (k p : Nat), s.length - p ≤ k → digitEnd s p < s.length →
      isnumber (s.getD (digitEnd s p) ' ') = false := by
  intro k
  induction k with
  | zero =>
    intro p hk he
    rw [digitEnd_rec, dif_neg (by omega : ¬ p < s.length)] at he ⊢
    omega
  | succ k ih =>
    intro p hk he
    rw [digitEnd_rec] at he ⊢
    by_cases hp : p < s.length
    · rw [dif_pos hp] at he ⊢
      by_cases hn : isnumber s[p]
      · rw [if_pos hn] at he ⊢
        exact ih (p + 1) (by omega) he
      · rw [if_neg hn] at he ⊢
        rw [getD_eq_getElem hp]
        exact Bool.eq_false_iff.mpr hn
    · rw [dif_neg hp] at he
      omega

/-! ## Character-class and keyword-table facts -/

/-- A decimal digit fails every test that precedes the number scan in
the dispatch of `Lexer::next`: it is not whitespace, not a slash, and
not alphabetic. -/
lemma isnumber_not_special {c : Char} (h : isnumber c = true) :
    ¬(c = ' ' ∨ c = '\n' ∨ c = '\r' ∨ c = '\t') ∧ c ≠ '/' ∧ isalpha c = false := by
  have h09 : '0' ≤ c ∧ c ≤ '9' := by simpa [isnumber] using h
  refine ⟨?_, ?_, ?_⟩
  · rintro (rfl | rfl | rfl | rfl) <;> revert h <;> decide
  · rintro rfl
    revert h
    decide
  · rw [Bool.eq_false_iff]
    intro ha
    have hab : ('a' ≤ c ∧ c ≤ 'z') ∨ ('A' ≤ c ∧ c ≤ 'Z') := by simpa [isalpha] using ha
    rcases hab with ⟨h1, -⟩ | ⟨h1, -⟩
    · exact absurd (le_trans h1 h09.2) (by decide)
    · exact absurd (le_trans h1 h09.2) (by decide)

lemma lookup_mem {l : List (String × TokenType)} {a : String} {b : TokenType}
    (h : List.lookup a l = some b) : (a, b) ∈ l := by
  rw [List.lookup_eq_some_iff] at h
  obtain ⟨l₁, l₂, rfl, -⟩ := h
  exact List.mem_append_right _ (List.mem_cons_self _ _)

/-- Every kind stored in the keyword table is a dedicated keyword kind:
in particular it is neither `Identifier` nor `EndOfInput`. -/
lemma keyword_kind_ne {a : String} {k : TokenType}
    (h : List.lookup a keywordMap = some k) :
    k ≠ TokenType.Identifier ∧ k ≠ TokenType.EndOfInput := by
  have hm := lookup_mem h
  have hall : ∀ p ∈ keywordMap, p.2 ≠ TokenType.Identifier ∧ p.2 ≠ TokenType.EndOfInput := by
    decide
  exact hall _ hm

/-! ## Facts about the operator switch -/

/-- The operator switch never selects the `EndOfInput` kind, and it
advances `m_pos` by one extra position exactly in the two-character
cases (which all require the lookahead to be an equals sign). -/
lemma opSwitch_spec (ch nextc : Char) (pos1 : Nat) :
    (opSwitch ch nextc pos1).1 ≠ TokenType.EndOfInput ∧
      ((opSwitch ch nextc pos1).2 = pos1 ∨
        ((opSwitch ch nextc pos1).2 = pos1 + 1 ∧ nextc = '=')) := by
  unfold opSwitch
  by_cases h1 : ch = '='
  · rw [if_pos h1]
    by_cases hn : nextc = '='
    · rw [if_pos hn]
      exact ⟨by simp, Or.inr ⟨rfl, hn⟩⟩
    · rw [if_neg hn]
      exact ⟨by simp, Or.inl rfl⟩
  · rw [if_neg h1]
    by_cases h2 : ch = '*'
    · rw [if_pos h2]
      exact ⟨by simp, Or.inl rfl⟩
    rw [if_neg h2]
    by_cases h3 : ch = '/'
    · rw [if_pos h3]
      exact ⟨by simp, Or.inl rfl⟩
    rw [if_neg h3]
    by_cases h4 : ch = '+'
    · rw [if_pos h4]
      exact ⟨by simp, Or.inl rfl⟩
    rw [if_neg h4]
    by_cases h5 : ch = '-'
    · rw [if_pos h5]
      exact ⟨by simp, Or.inl rfl⟩
    rw [if_neg h5]
    by_cases h6 : ch = '>'
    · rw [if_pos h6]
      by_cases hn : nextc = '='
      · rw [if_pos hn]
        exact ⟨by simp, Or.inr ⟨rfl, hn⟩⟩
      · rw [if_neg hn]
        exact ⟨by simp, Or.inl rfl⟩
    rw [if_neg h6]
    by_cases h7 : ch = '<'
    · rw [if_pos h7]
      by_cases hn : nextc = '='
      · rw [if_pos hn]
        exact ⟨by simp, Or.inr ⟨rfl, hn⟩⟩
      · rw [if_neg hn]
        exact ⟨by simp, Or.inl rfl⟩
    rw [if_neg h7]
    by_cases h8 : ch = '\x7b'
    · rw [if_pos h8]
      exact ⟨by simp, Or.inl rfl⟩
    rw [if_neg h8]
    by_cases h9 : ch = '\x7d'
    · rw [if_pos h9]
      exact ⟨by simp, Or.inl rfl⟩
    rw [if_neg h9]
    by_cases h10 : ch = '('
    · rw [if_pos h10]
      exact ⟨by simp, Or.inl rfl⟩
    rw [if_neg h10]
    by_cases h11 : ch = ')'
    · rw [if_pos h11]
      exact ⟨by simp, Or.inl rfl⟩
    rw [if_neg h11]
    by_cases h12 : ch = ','
    · rw [if_pos h12]
      exact ⟨by simp, Or.inl rfl⟩
    rw [if_neg h12]
    by_cases h13 : ch = ':'
    · rw [if_pos h13]
      exact ⟨by simp, Or.inl rfl⟩
    rw [if_neg h13]
    by_cases h14 : ch = ';'
    · rw [if_pos h14]
      exact ⟨by simp, Or.inl rfl⟩
    rw [if_neg h14]
    exact ⟨by simp, Or.inl rfl⟩

/-! ## The scanning loop: fuel irrelevance and the loop equation -/

lemma nextAuxF_zero (s : List Char) (pos start : Nat) :
    nextAuxF 0 s pos start = ({ type := TokenType.EndOfInput, value := "" }, pos, start) := rfl

lemma nextAuxF_succ (fuel : Nat) (s : List Char) (pos start : Nat) :
    nextAuxF (fuel + 1) s pos start =
      if h : pos < s.length then
        if s[pos] = ' ' ∨ s[pos] = '\n' ∨ s[pos] = '\r' ∨ s[pos] = '\t' then
          nextAuxF fuel s (pos + 1) pos
        else if s[pos] = '/' ∧ pos + 1 < s.length ∧ s.getD (pos + 1) '\x00' = '/' then
          nextAuxF fuel s (lineCommentEnd s (pos + 1)) pos
        else if isalpha s[pos] then
          ((Lexer.identifier s (pos + 1) pos).1, (Lexer.identifier s (pos + 1) pos).2, pos)
        else if isnumber s[pos] then
          ((Lexer.number s (pos + 1) pos).1, (Lexer.number s (pos + 1) pos).2, pos)
        else
          ({ type := (opSwitch s[pos] (s.getD (pos + 1) '\x00') (pos + 1)).1,
             value := String.mk
               (strSlice s pos (opSwitch s[pos] (s.getD (pos + 1) '\x00') (pos + 1)).2) },
           (opSwitch s[pos] (s.getD (pos + 1) '\x00') (pos + 1)).2, pos)
      else ({ type := TokenType.EndOfInput, value := "" }, pos, start) := rfl

/-- The result of the scanning loop does not depend on the fuel as soon
as the fuel covers the remaining source length. -/
lemma nextAuxF_irrel :
    ∀ (f1 f2 : Nat) (s : List Char) (pos start : Nat),
      s.length - pos ≤ f1 → s.length - pos ≤ f2 →
      nextAuxF f1 s pos start = nextAuxF f2 s pos start := by
  intro f1
  induction f1 with
  | zero =>
    intro f2 s pos start h1 h2
    have hp : ¬ pos < s.length := by omega
    cases f2 with
    | zero => rfl
    | succ m => rw [nextAuxF_zero, nextAuxF_succ, dif_neg hp]
  | succ n ih =>
    intro f2 s pos start h1 h2
    cases f2 with
    | zero =>
      have hp : ¬ pos < s.length := by omega
      rw [nextAuxF_zero, nextAuxF_succ, dif_neg hp]
    | succ m =>
      rw [nextAuxF_succ, nextAuxF_succ]
      by_cases hp : pos < s.length
      · rw [dif_pos hp, dif_pos hp]
        by_cases c1 : s[pos] = ' ' ∨ s[pos] = '\n' ∨ s[pos] = '\r' ∨ s[pos] = '\t'
        · rw [if_pos c1, if_pos c1]
          exact ih m s (pos + 1) pos (by omega) (by omega)
        · rw [if_neg c1, if_neg c1]
          by_cases c2 : s[pos] = '/' ∧ pos + 1 < s.length ∧ s.getD (pos + 1) '\x00' = '/'
          · rw [if_pos c2, if_pos c2]
            have hge := lineCommentEnd_ge s (pos + 1)
            exact ih m s (lineCommentEnd s (pos + 1)) pos (by omega) (by omega)
          · rw [if_neg c2, if_neg c2]
      · rw [dif_neg hp, dif_neg hp]

/-- One-step unfolding of the scanning loop of `Lexer::next`: exactly
the body of `while (m_pos < len) ...` of `src/lexer-advanced.cpp`. -/
lemma nextAux_eq (s : List Char) (pos start : Nat) :
    nextAux s pos start =
      if h : pos < s.length then
        if s[pos] = ' ' ∨ s[pos] = '\n' ∨ s[pos] = '\r' ∨ s[pos] = '\t' then
          nextAux s (pos + 1) pos
        else if s[pos] = '/' ∧ pos + 1 < s.length ∧ s.getD (pos + 1) '\x00' = '/' then
          nextAux s (lineCommentEnd s (pos + 1)) pos
        else if isalpha s[pos] then
          ((Lexer.identifier s (pos + 1) pos).1, (Lexer.identifier s (pos + 1) pos).2, pos)
        else if isnumber s[pos] then
          ((Lexer.number s (pos + 1) pos).1, (Lexer.number s (pos + 1) pos).2, pos)
        else
          ({ type := (opSwitch s[pos] (s.getD (pos + 1) '\x00') (pos + 1)).1,
             value := String.mk
               (strSlice s pos (opSwitch s[pos] (s.getD (pos + 1) '\x00') (pos + 1)).2) },
           (opSwitch s[pos] (s.getD (pos + 1) '\x00') (pos + 1)).2, pos)
      else ({ type := TokenType.EndOfInput, value := "" }, pos, start) := by
  unfold nextAux
  by_cases hp : pos < s.length
  · have hsub : s.length - pos = (s.length - (pos + 1)) + 1 := by omega
    rw [hsub, nextAuxF_succ, dif_pos hp, dif_pos hp]
    by_cases c1 : s[pos] = ' ' ∨ s[pos] = '\n' ∨ s[pos] = '\r' ∨ s[pos] = '\t'
    · rw [if_pos c1, if_pos c1]
    · rw [if_neg c1, if_neg c1]
      by_cases c2 : s[pos] = '/' ∧ pos + 1 < s.length ∧ s.getD (pos + 1) '\x00' = '/'
      · rw [if_pos c2, if_pos c2]
        have hge := lineCommentEnd_ge s (pos + 1)
        exact nextAuxF_irrel _ _ s (lineCommentEnd s (pos + 1)) pos (by omega) (le_refl _)
      · rw [if_neg c2, if_neg c2]
  · have hsub : s.length - pos = 0 := by omega
    rw [hsub, nextAuxF_zero, dif_neg hp]

/-- `Lexer::next` in terms of the scanning loop: the early return for an
empty source coincides with what the loop does anyway, so the call
always returns the loop result, with the member fields updated to the
loop's final cursor. -/
lemma Lexer.next_eq (st : LexerState) :
    Lexer.next st =
      ((nextAux st.m_source st.m_pos st.m_start).1,
       { m_source := st.m_source,
         m_pos := (nextAux st.m_source st.m_pos st.m_start).2.1,
         m_start := (nextAux st.m_source st.m_pos st.m_start).2.2 }) := by
  obtain ⟨s, pos, start⟩ := st
  unfold Lexer.next
  by_cases h0 : s.length = 0
  · have hz : s.length - pos = 0 := by omega
    simp only [h0, if_pos rfl]
    rw [nextAux, hz, nextAuxF_zero]
    simp
  · rw [if_neg h0]

/-! ## Facts about the identifier and number sub-scans -/

lemma identifier_snd (s : List Char) (pos start : Nat) :
    (Lexer.identifier s pos start).2 = alnumEnd s pos := rfl

lemma identifier_value (s : List Char) (pos start : Nat) :
    (Lexer.identifier s pos start).1.value = String.mk (strSlice s start (alnumEnd s pos)) := rfl

lemma identifier_line_col (s : List Char) (pos start : Nat) :
    (Lexer.identifier s pos start).1.line = 0 ∧ (Lexer.identifier s pos start).1.column = 0 :=
  ⟨rfl, rfl⟩

lemma identifier_type_ne_eoi (s : List Char) (pos start : Nat) :
    (Lexer.identifier s pos start).1.type ≠ TokenType.EndOfInput := by
  simp only [Lexer.identifier]
  rcases hk : List.lookup (String.mk (strSlice s start (alnumEnd s pos))) keywordMap with - | k
  · simp
  · simp
    exact (keyword_kind_ne hk).2

lemma number_snd (s : List Char) (pos start : Nat) :
    (Lexer.number s pos start).2 = digitEnd s pos := rfl

lemma number_fst (s : List Char) (pos start : Nat) :
    (Lexer.number s pos start).1 =
      { type := TokenType.IntegerLiteral,
        value := String.mk (strSlice s start (digitEnd s pos)) } := rfl

/-! ## Core facts about one call of the scanning loop -/

/-- The cursor never moves backwards and never leaves the source. -/
lemma nextAux_pos_le {s : List Char} {pos : Nat} (start : Nat) (hp : pos ≤ s.length) :
    pos ≤ (nextAux s pos start).2.1 ∧ (nextAux s pos start).2.1 ≤ s.length := by
  suffices key : ∀ n pos start, s.length - pos ≤ n → pos ≤ s.length →
      pos ≤ (nextAux s pos start).2.1 ∧ (nextAux s pos start).2.1 ≤ s.length from
    key (s.length - pos) pos start (le_refl _) hp
  intro n
  induction n with
  | zero =>
    intro pos start hn hple
    rw [nextAux_eq, dif_neg (by omega : ¬ pos < s.length)]
    exact ⟨le_refl _, hple⟩
  | succ n ih =>
    intro pos start hn hple
    rw [nextAux_eq]
    by_cases hlt : pos < s.length
    · rw [dif_pos hlt]
      by_cases c1 : s[pos] = ' ' ∨ s[pos] = '\n' ∨ s[pos] = '\r' ∨ s[pos] = '\t'
      · rw [if_pos c1]
        have h2 := ih (pos + 1) pos (by omega) (by omega)
        exact ⟨by omega, h2.2⟩
      rw [if_neg c1]
      by_cases c2 : s[pos] = '/' ∧ pos + 1 < s.length ∧ s.getD (pos + 1) '\x00' = '/'
      · rw [if_pos c2]
        have hge := lineCommentEnd_ge s (pos + 1)
        have hle := lineCommentEnd_le c2.2.1
        have h2 := ih (lineCommentEnd s (pos + 1)) pos (by omega) (by omega)
        exact ⟨by omega, h2.2⟩
      rw [if_neg c2]
      by_cases c3 : isalpha s[pos]
      · rw [if_pos c3]
        dsimp only
        rw [identifier_snd]
        have hge := alnumEnd_ge s (pos + 1)
        have hle := alnumEnd_le (show pos + 1 ≤ s.length by omega)
        exact ⟨by omega, hle⟩
      rw [if_neg c3]
      by_cases c4 : isnumber s[pos]
      · rw [if_pos c4]
        dsimp only
        rw [number_snd]
        have hge := digitEnd_ge s (pos + 1)
        have hle := digitEnd_le (show pos + 1 ≤ s.length by omega)
        exact ⟨by omega, hle⟩
      rw [if_neg c4]
      dsimp only
      rcases (opSwitch_spec s[pos] (s.getD (pos + 1) '\x00') (pos + 1)).2 with he | ⟨he, hnc⟩
      · rw [he]
        omega
      · rw [he]
        have h1 : pos + 1 < s.length := by
          by_contra hcon
          rw [getD_eq_default (by omega) _] at hnc
          exact absurd hnc (by decide)
        omega
    · rw [dif_neg hlt]
      exact ⟨le_refl _, hple⟩

/-- After a call, the recorded token start never exceeds the cursor. -/
lemma nextAux_start_le {s : List Char} {pos start : Nat} (hs : start ≤ pos) :
    (nextAux s pos start).2.2 ≤ (nextAux s pos start).2.1 := by
  suffices key : ∀ n pos start, s.length - pos ≤ n → start ≤ pos →
      (nextAux s pos start).2.2 ≤ (nextAux s pos start).2.1 from
    key (s.length - pos) pos start (le_refl _) hs
  intro n
  induction n with
  | zero =>
    intro pos start hn hsle
    rw [nextAux_eq, dif_neg (by omega : ¬ pos < s.length)]
    exact hsle
  | succ n ih =>
    intro pos start hn hsle
    rw [nextAux_eq]
    by_cases hlt : pos < s.length
    · rw [dif_pos hlt]
      by_cases c1 : s[pos] = ' ' ∨ s[pos] = '\n' ∨ s[pos] = '\r' ∨ s[pos] = '\t'
      · rw [if_pos c1]
        exact ih (pos + 1) pos (by omega) (by omega)
      rw [if_neg c1]
      by_cases c2 : s[pos] = '/' ∧ pos + 1 < s.length ∧ s.getD (pos + 1) '\x00' = '/'
      · rw [if_pos c2]
        have hge := lineCommentEnd_ge s (pos + 1)
        exact ih (lineCommentEnd s (pos + 1)) pos (by omega) (by omega)
      rw [if_neg c2]
      by_cases c3 : isalpha s[pos]
      · rw [if_pos c3]
        dsimp only
        rw [identifier_snd]
        have hge := alnumEnd_ge s (pos + 1)
        omega
      rw [if_neg c3]
      by_cases c4 : isnumber s[pos]
      · rw [if_pos c4]
        dsimp only
        rw [number_snd]
        have hge := digitEnd_ge s (pos + 1)
        omega
      rw [if_neg c4]
      dsimp only
      rcases (opSwitch_spec s[pos] (s.getD (pos + 1) '\x00') (pos + 1)).2 with he | ⟨he, -⟩ <;>
        omega
    · rw [dif_neg hlt]
      exact hsle

/-- A call that returns anything other than the sentinel strictly
advances the cursor (and hence was made strictly inside the source). -/
lemma nextAux_progress {s : List Char} {pos start : Nat}
    (hne : (nextAux s pos start).1.type ≠ TokenType.EndOfInput) :
    pos < (nextAux s pos start).2.1 ∧ pos < s.length := by
  suffices key : ∀ n pos start, s.length - pos ≤ n →
      (nextAux s pos start).1.type ≠ TokenType.EndOfInput →
      pos < (nextAux s pos start).2.1 ∧ pos < s.length from
    key (s.length - pos) pos start (le_refl _) hne
  intro n
  induction n with
  | zero =>
    intro pos start hn hne2
    rw [nextAux_eq, dif_neg (by omega : ¬ pos < s.length)] at hne2
    exact absurd rfl hne2
  | succ n ih =>
    intro pos start hn hne2
    rw [nextAux_eq] at hne2 ⊢
    by_cases hlt : pos < s.length
    · rw [dif_pos hlt] at hne2 ⊢
      by_cases c1 : s[pos] = ' ' ∨ s[pos] = '\n' ∨ s[pos] = '\r' ∨ s[pos] = '\t'
      · rw [if_pos c1] at hne2 ⊢
        have h2 := ih (pos + 1) pos (by omega) hne2
        exact ⟨by omega, hlt⟩
      rw [if_neg c1] at hne2 ⊢
      by_cases c2 : s[pos] = '/' ∧ pos + 1 < s.length ∧ s.getD (pos + 1) '\x00' = '/'
      · rw [if_pos c2] at hne2 ⊢
        have hge := lineCommentEnd_ge s (pos + 1)
        have h2 := ih (lineCommentEnd s (pos + 1)) pos (by omega) hne2
        exact ⟨by omega, hlt⟩
      rw [if_neg c2] at hne2 ⊢
      by_cases c3 : isalpha s[pos]
      · rw [if_pos c3] at hne2 ⊢
        dsimp only
        rw [identifier_snd]
        have hge := alnumEnd_ge s (pos + 1)
        exact ⟨by omega, hlt⟩
      rw [if_neg c3] at hne2 ⊢
      by_cases c4 : isnumber s[pos]
      · rw [if_pos c4] at hne2 ⊢
        dsimp only
        rw [number_snd]
        have hge := digitEnd_ge s (pos + 1)
        exact ⟨by omega, hlt⟩
      rw [if_neg c4] at hne2 ⊢
      dsimp only
      rcases (opSwitch_spec s[pos] (s.getD (pos + 1) '\x00') (pos + 1)).2 with he | ⟨he, -⟩ <;>
        exact ⟨by omega, hlt⟩
    · rw [dif_neg hlt] at hne2
      exact absurd rfl hne2

/-- When a call returns the sentinel, the token is exactly the sentinel
token with empty lexeme and the final cursor is at (or beyond) the end
of the source. -/
lemma nextAux_eoi {s : List Char} {pos start : Nat}
    (heoi : (nextAux s pos start).1.type = TokenType.EndOfInput) :
    (nextAux s pos start).1 = { type := TokenType.EndOfInput, value := "" } ∧
      s.length ≤ (nextAux s pos start).2.1 := by
  suffices key : ∀ n pos start, s.length - pos ≤ n →
      (nextAux s pos start).1.type = TokenType.EndOfInput →
      (nextAux s pos start).1 = { type := TokenType.EndOfInput, value := "" } ∧
        s.length ≤ (nextAux s pos start).2.1 from
    key (s.length - pos) pos start (le_refl _) heoi
  intro n
  induction n with
  | zero =>
    intro pos start hn heoi2
    rw [nextAux_eq, dif_neg (by omega : ¬ pos < s.length)]
    refine ⟨rfl, ?_⟩
    dsimp only
    omega
  | succ n ih =>
    intro pos start hn heoi2
    rw [nextAux_eq] at heoi2 ⊢
    by_cases hlt : pos < s.length
    · rw [dif_pos hlt] at heoi2 ⊢
      by_cases c1 : s[pos] = ' ' ∨ s[pos] = '\n' ∨ s[pos] = '\r' ∨ s[pos] = '\t'
      · rw [if_pos c1] at heoi2 ⊢
        exact ih (pos + 1) pos (by omega) heoi2
      rw [if_neg c1] at heoi2 ⊢
      by_cases c2 : s[pos] = '/' ∧ pos + 1 < s.length ∧ s.getD (pos + 1) '\x00' = '/'
      · rw [if_pos c2] at heoi2 ⊢
        have hge := lineCommentEnd_ge s (pos + 1)
        exact ih (lineCommentEnd s (pos + 1)) pos (by omega) heoi2
      rw [if_neg c2] at heoi2 ⊢
      by_cases c3 : isalpha s[pos]
      · rw [if_pos c3] at heoi2
        exact absurd heoi2 (identifier_type_ne_eoi s (pos + 1) pos)
      rw [if_neg c3] at heoi2 ⊢
      by_cases c4 : isnumber s[pos]
      · rw [if_pos c4] at heoi2
        dsimp only at heoi2
        rw [number_fst] at heoi2
        exact absurd heoi2 (by simp)
      rw [if_neg c4] at heoi2
      dsimp only at heoi2
      exact absurd heoi2 (opSwitch_spec s[pos] (s.getD (pos + 1) '\x00') (pos + 1)).1
    · rw [dif_neg hlt]
      refine ⟨rfl, ?_⟩
      dsimp only
      omega

/-- The scanner never fills in the `line` and `column` members: every
returned token carries the value-initialized zeros. -/
lemma nextAux_line_col (s : List Char) (pos start : Nat) :
    (nextAux s pos start).1.line = 0 ∧ (nextAux s pos start).1.column = 0 := by
  suffices key : ∀ n pos start, s.length - pos ≤ n →
      (nextAux s pos start).1.line = 0 ∧ (nextAux s pos start).1.column = 0 from
    key (s.length - pos) pos start (le_refl _)
  intro n
  induction n with
  | zero =>
    intro pos start hn
    rw [nextAux_eq, dif_neg (by omega : ¬ pos < s.length)]
    exact ⟨rfl, rfl⟩
  | succ n ih =>
    intro pos start hn
    rw [nextAux_eq]
    by_cases hlt : pos < s.length
    · rw [dif_pos hlt]
      by_cases c1 : s[pos] = ' ' ∨ s[pos] = '\n' ∨ s[pos] = '\r' ∨ s[pos] = '\t'
      · rw [if_pos c1]
        exact ih (pos + 1) pos (by omega)
      rw [if_neg c1]
      by_cases c2 : s[pos] = '/' ∧ pos + 1 < s.length ∧ s.getD (pos + 1) '\x00' = '/'
      · rw [if_pos c2]
        have hge := lineCommentEnd_ge s (pos + 1)
        exact ih (lineCommentEnd s (pos + 1)) pos (by omega)
      rw [if_neg c2]
      by_cases c3 : isalpha s[pos]
      · rw [if_pos c3]
        exact identifier_line_col s (pos + 1) pos
      rw [if_neg c3]
      by_cases c4 : isnumber s[pos]
      · rw [if_pos c4]
        exact ⟨rfl, rfl⟩
      rw [if_neg c4]
      exact ⟨rfl, rfl⟩
    · rw [dif_neg hlt]
      exact ⟨rfl, rfl⟩

lemma mk_length (l : List Char) : (String.mk l).length = l.length := rfl

lemma mk_data (l : List Char) : (String.mk l).data = l := rfl

/-- A two-character operator is only recognized when the lookahead
character is a real equals sign, which forces `pos + 1` to be in
bounds. -/
lemma lookahead_eq_imp_lt {s : List Char} {pos : Nat}
    (h : s.getD (pos + 1) '\x00' = '=') : pos + 1 < s.length := by
  by_contra hcon
  rw [getD_eq_default (by omega) _] at h
  exact absurd h (by decide)

/-- Decomposition of the source consumed by one call of the scanning
loop: the emitted lexeme is exactly the final segment of the consumed
span `[pos, pos2)` (everything before it is skipped whitespace/comment
text), and a sentinel-returning call consumes precisely the rest of the
source. -/
lemma nextAux_consumed {s : List Char} {pos : Nat} (start : Nat) (hp : pos ≤ s.length) :
    (nextAux s pos start).1.value.length ≤ (nextAux s pos start).2.1 - pos ∧
      (nextAux s pos start).1.value.data =
        strSlice s ((nextAux s pos start).2.1 - (nextAux s pos start).1.value.length)
          (nextAux s pos start).2.1 ∧
      ((nextAux s pos start).1.type = TokenType.EndOfInput →
        (nextAux s pos start).2.1 = s.length) := by
  suffices key : ∀ n pos start, s.length - pos ≤ n → pos ≤ s.length →
      (nextAux s pos start).1.value.length ≤ (nextAux s pos start).2.1 - pos ∧
        (nextAux s pos start).1.value.data =
          strSlice s ((nextAux s pos start).2.1 - (nextAux s pos start).1.value.length)
            (nextAux s pos start).2.1 ∧
        ((nextAux s pos start).1.type = TokenType.EndOfInput →
          (nextAux s pos start).2.1 = s.length) from
    key (s.length - pos) pos start (le_refl _) hp
  intro n
  induction n with
  | zero =>
    intro pos start hn hple
    have hpe : pos = s.length := by omega
    rw [nextAux_eq, dif_neg (by omega : ¬ pos < s.length)]
    dsimp only
    rw [show ("" : String).length = 0 from rfl]
    refine ⟨by omega, ?_, fun _ => by omega⟩
    show ([] : List Char) = strSlice s (pos - 0) pos
    rw [Nat.sub_zero, strSlice_self]
  | succ n ih =>
    intro pos start hn hple
    rw [nextAux_eq]
    by_cases hlt : pos < s.length
    · rw [dif_pos hlt]
      by_cases c1 : s[pos] = ' ' ∨ s[pos] = '\n' ∨ s[pos] = '\r' ∨ s[pos] = '\t'
      · rw [if_pos c1]
        have h2 := ih (pos + 1) pos (by omega) (by omega)
        exact ⟨by omega, h2.2.1, h2.2.2⟩
      rw [if_neg c1]
      by_cases c2 : s[pos] = '/' ∧ pos + 1 < s.length ∧ s.getD (pos + 1) '\x00' = '/'
      · rw [if_pos c2]
        have hge := lineCommentEnd_ge s (pos + 1)
        have hle := lineCommentEnd_le c2.2.1
        have h2 := ih (lineCommentEnd s (pos + 1)) pos (by omega) (by omega)
        exact ⟨by omega, h2.2.1, h2.2.2⟩
      rw [if_neg c2]
      by_cases c3 : isalpha s[pos]
      · rw [if_pos c3]
        dsimp only
        rw [identifier_value, identifier_snd, mk_length, mk_data]
        have hge := alnumEnd_ge s (pos + 1)
        have hle := alnumEnd_le (show pos + 1 ≤ s.length by omega)
        have hsl : (strSlice s pos (alnumEnd s (pos + 1))).length =
            alnumEnd s (pos + 1) - pos := strSlice_length (by omega) hle
        rw [hsl]
        refine ⟨by omega, ?_, ?_⟩
        · rw [show alnumEnd s (pos + 1) - (alnumEnd s (pos + 1) - pos) = pos by omega]
        · intro habs
          exact absurd habs (identifier_type_ne_eoi s (pos + 1) pos)
      rw [if_neg c3]
      by_cases c4 : isnumber s[pos]
      · rw [if_pos c4]
        dsimp only
        rw [number_fst, number_snd]
        dsimp only
        rw [mk_length]
        have hge := digitEnd_ge s (pos + 1)
        have hle := digitEnd_le (show pos + 1 ≤ s.length by omega)
        have hsl : (strSlice s pos (digitEnd s (pos + 1))).length =
            digitEnd s (pos + 1) - pos := strSlice_length (by omega) hle
        rw [hsl]
        refine ⟨by omega, ?_, ?_⟩
        · rw [show digitEnd s (pos + 1) - (digitEnd s (pos + 1) - pos) = pos by omega]
        · intro habs
          exact absurd habs (by simp)
      rw [if_neg c4]
      dsimp only
      rw [mk_length]
      have hop := opSwitch_spec s[pos] (s.getD (pos + 1) '\x00') (pos + 1)
      have hple2 : (opSwitch s[pos] (s.getD (pos + 1) '\x00') (pos + 1)).2 ≤ s.length := by
        rcases hop.2 with he | ⟨he, hnc⟩
        · omega
        · have := lookahead_eq_imp_lt hnc
          omega
      have hpge : pos ≤ (opSwitch s[pos] (s.getD (pos + 1) '\x00') (pos + 1)).2 := by
        rcases hop.2 with he | ⟨he, -⟩ <;> omega
      have hsl : (strSlice s pos (opSwitch s[pos] (s.getD (pos + 1) '\x00') (pos + 1)).2).length =
          (opSwitch s[pos] (s.getD (pos + 1) '\x00') (pos + 1)).2 - pos :=
        strSlice_length hpge hple2
      rw [hsl]
      refine ⟨by omega, ?_, ?_⟩
      · rw [show (opSwitch s[pos] (s.getD (pos + 1) '\x00') (pos + 1)).2 -
            ((opSwitch s[pos] (s.getD (pos + 1) '\x00') (pos + 1)).2 - pos) = pos by omega]
      · intro habs
        exact absurd habs hop.1
    · rw [dif_neg hlt]
      dsimp only
      rw [show ("" : String).length = 0 from rfl]
      refine ⟨by omega, ?_, fun _ => by omega⟩
      show ([] : List Char) = strSlice s (pos - 0) pos
      rw [Nat.sub_zero, strSlice_self]

/-! ## State-level facts about repeated calls of `Lexer::next` -/

/-- Once the cursor is at (or past) the end of the source, `Lexer::next`
returns the sentinel token and leaves the whole state untouched. -/
lemma eoi_stable {st : LexerState} (h : st.m_source.length ≤ st.m_pos) :
    Lexer.next st = ({ type := TokenType.EndOfInput, value := "" }, st) := by
  obtain ⟨s, pos, start⟩ := st
  rw [Lexer.next_eq]
  dsimp only at h ⊢
  rw [nextAux_eq, dif_neg (by omega : ¬ pos < s.length)]

lemma iter_stable {st : LexerState} (h : st.m_source.length ≤ st.m_pos) :
    ∀ n, iterState st n = st := by
  intro n
  induction n with
  | zero => rfl
  | succ n ih =>
    show iterState (Lexer.next st).2 n = st
    rw [eoi_stable h]
    exact ih

lemma next_source (st : LexerState) : (Lexer.next st).2.m_source = st.m_source := by
  rw [Lexer.next_eq]

lemma iter_source (st : LexerState) : ∀ n, (iterState st n).m_source = st.m_source := by
  intro n
  induction n generalizing st with
  | zero => rfl
  | succ n ih =>
    show (iterState (Lexer.next st).2 n).m_source = st.m_source
    rw [ih (Lexer.next st).2, next_source]

lemma iterState_succ_right (st : LexerState) (n : Nat) :
    iterState st (n + 1) = (Lexer.next (iterState st n)).2 := by
  induction n generalizing st with
  | zero => rfl
  | succ n ih =>
    show iterState (Lexer.next st).2 (n + 1) = _
    rw [ih (Lexer.next st).2]
    rfl

/-- One `Lexer::next` call preserves the cursor invariant
`m_start ≤ m_pos ≤ length` and never moves `m_pos` backwards. -/
lemma next_inv {st : LexerState} (h1 : st.m_start ≤ st.m_pos)
    (h2 : st.m_pos ≤ st.m_source.length) :
    (Lexer.next st).2.m_start ≤ (Lexer.next st).2.m_pos ∧
      (Lexer.next st).2.m_pos ≤ (Lexer.next st).2.m_source.length ∧
      st.m_pos ≤ (Lexer.next st).2.m_pos := by
  obtain ⟨s, pos, start⟩ := st
  dsimp only at h1 h2
  rw [Lexer.next_eq]
  dsimp only
  have hb := @nextAux_pos_le s pos start h2
  have hs := @nextAux_start_le s pos start h1
  exact ⟨hs, hb.2, hb.1⟩

lemma iter_inv {st : LexerState} (h1 : st.m_start ≤ st.m_pos)
    (h2 : st.m_pos ≤ st.m_source.length) :
    ∀ n, (iterState st n).m_start ≤ (iterState st n).m_pos ∧
      (iterState st n).m_pos ≤ (iterState st n).m_source.length := by
  intro n
  induction n generalizing st with
  | zero => exact ⟨h1, h2⟩
  | succ n ih =>
    show (iterState (Lexer.next st).2 n).m_start ≤ _ ∧ _
    have hnx := next_inv h1 h2
    exact ih hnx.1 hnx.2.1

/-- Repeated calls reach the sentinel after at most `length - m_pos`
tokens: there is a first index at which the sentinel appears, every
earlier call produces a real token, and every later call repeats the
sentinel. -/
lemma exists_firstEoi :
    ∀ (k : Nat) (st : LexerState), st.m_pos ≤ st.m_source.length →
      st.m_source.length - st.m_pos ≤ k →
      ∃ n, n ≤ k ∧ (∀ m, m < n → (tokenAt st m).type ≠ TokenType.EndOfInput) ∧
        (∀ m, n ≤ m → tokenAt st m = { type := TokenType.EndOfInput, value := "" }) := by
  intro k
  induction k with
  | zero =>
    intro st hple hk
    refine ⟨0, le_refl _, fun m hm => absurd hm (by omega), fun m hm => ?_⟩
    unfold tokenAt
    rw [iter_stable (by omega) m, eoi_stable (by omega)]
  | succ k ih =>
    intro st hple hk
    by_cases heoi : (Lexer.next st).1.type = TokenType.EndOfInput
    · have heoi2 : (nextAux st.m_source st.m_pos st.m_start).1.type =
          TokenType.EndOfInput := by
        rw [Lexer.next_eq] at heoi
        exact heoi
      have hge2 : (Lexer.next st).2.m_source.length ≤ (Lexer.next st).2.m_pos := by
        rw [next_source, Lexer.next_eq]
        exact (nextAux_eoi heoi2).2
      refine ⟨0, by omega, fun m hm => absurd hm (by omega), fun m hm => ?_⟩
      cases m with
      | zero =>
        show (Lexer.next st).1 = _
        rw [Lexer.next_eq]
        exact (nextAux_eoi heoi2).1
      | succ m2 =>
        show tokenAt (Lexer.next st).2 m2 = _
        unfold tokenAt
        rw [iter_stable hge2 m2, eoi_stable hge2]
    · have heoi2 : (nextAux st.m_source st.m_pos st.m_start).1.type ≠
          TokenType.EndOfInput := by
        rw [Lexer.next_eq] at heoi
        exact heoi
      have hpr := nextAux_progress heoi2
      have hb := @nextAux_pos_le st.m_source st.m_pos st.m_start hple
      have hsrc : (Lexer.next st).2.m_source = st.m_source := next_source st
      have hpos2 : (Lexer.next st).2.m_pos =
          (nextAux st.m_source st.m_pos st.m_start).2.1 := by
        rw [Lexer.next_eq]
      obtain ⟨n, hnk, hbefore, hafter⟩ :=
        ih (Lexer.next st).2 (by rw [hsrc, hpos2]; exact hb.2) (by rw [hsrc, hpos2]; omega)
      refine ⟨n + 1, by omega, ?_, ?_⟩
      · intro m hm
        cases m with
        | zero => exact heoi
        | succ m2 => exact hbefore m2 (by omega)
      · intro m hm
        cases m with
        | zero => omega
        | succ m2 => exact hafter m2 (by omega)

/-! ## Unfolding equations for the run functions -/

lemma scanFuel_succ (n : Nat) (st : LexerState) :
    scanFuel (n + 1) st =
      if (Lexer.next st).1.type = TokenType.EndOfInput then [(Lexer.next st).1]
      else (Lexer.next st).1 :: scanFuel n (Lexer.next st).2 := rfl

lemma piecesFuel_succ (n : Nat) (s : List Char) (pos start : Nat) :
    piecesFuel (n + 1) s pos start =
      if (nextAux s pos start).1.type = TokenType.EndOfInput then
        [(strSlice s pos ((nextAux s pos start).2.1 - (nextAux s pos start).1.value.length),
          (nextAux s pos start).1.value.data)]
      else
        (strSlice s pos ((nextAux s pos start).2.1 - (nextAux s pos start).1.value.length),
          (nextAux s pos start).1.value.data) ::
          piecesFuel n s (nextAux s pos start).2.1 (nextAux s pos start).2.2 := rfl

lemma concatPieces_nil : concatPieces [] = [] := rfl

lemma concatPieces_cons (p : List Char × List Char) (l : List (List Char × List Char)) :
    concatPieces (p :: l) = p.1 ++ p.2 ++ concatPieces l := rfl

/-- With fuel exceeding the remaining source length, the skipped spans
and lexemes of a run concatenate to exactly the remaining source. -/
lemma piecesFuel_concat (s : List Char) :
    ∀ (n pos start : Nat), pos ≤ s.length → s.length - pos < n →
      concatPieces (piecesFuel n s pos start) = strSlice s pos s.length := by
  intro n
  induction n with
  | zero =>
    intro pos start h1 h2
    exact absurd h2 (by omega)
  | succ n ih =>
    intro pos start h1 h2
    rw [piecesFuel_succ]
    have hcons := nextAux_consumed start h1
    by_cases heoi : (nextAux s pos start).1.type = TokenType.EndOfInput
    · rw [if_pos heoi, concatPieces_cons, concatPieces_nil]
      have hval : (nextAux s pos start).1.value = "" := by
        rw [(nextAux_eoi heoi).1]
      have hpos2 : (nextAux s pos start).2.1 = s.length := hcons.2.2 heoi
      rw [hval, hpos2, show ("" : String).length = 0 from rfl,
        show ("" : String).data = ([] : List Char) from rfl, Nat.sub_zero,
        List.append_nil, List.append_nil]
    · rw [if_neg heoi, concatPieces_cons]
      have hprog := nextAux_progress heoi
      have hb := nextAux_pos_le start h1
      rw [ih (nextAux s pos start).2.1 (nextAux s pos start).2.2 hb.2 (by omega)]
      rw [hcons.2.1]
      dsimp only
      rw [List.append_assoc]
      have hL := hcons.1
      rw [strSlice_append (by omega) hb.2]
      rw [strSlice_append (by omega) (by omega)]

/-- The lexemes listed by `piecesFuel` are exactly the lexemes of the
tokens of the `scanFuel` run with the same fuel. -/
lemma piecesFuel_lexemes :
    ∀ (n : Nat) (s : List Char) (pos start : Nat),
      (piecesFuel n s pos start).map Prod.snd =
        (scanFuel n ⟨s, pos, start⟩).map (fun t => t.value.data) := by
  intro n
  induction n with
  | zero => intro s pos start; rfl
  | succ n ih =>
    intro s pos start
    rw [piecesFuel_succ, scanFuel_succ, Lexer.next_eq]
    dsimp only
    by_cases heoi : (nextAux s pos start).1.type = TokenType.EndOfInput
    · rw [if_pos heoi, if_pos heoi]
      rfl
    · rw [if_neg heoi, if_neg heoi]
      rw [List.map_cons, List.map_cons, ih]

/-! ## Dispatch helpers: which sub-scan one call selects -/

/-- An alphabetic character fails the whitespace and comment tests that
precede the identifier scan in the dispatch of `Lexer::next`. -/
lemma isalpha_not_special {c : Char} (h : isalpha c = true) :
    ¬(c = ' ' ∨ c = '\n' ∨ c = '\r' ∨ c = '\t') ∧ c ≠ '/' := by
  refine ⟨?_, ?_⟩
  · rintro (rfl | rfl | rfl | rfl) <;> revert h <;> decide
  · rintro rfl
    revert h
    decide

/-- Dispatch on an alphabetic character: the call runs the identifier
sub-scan with `m_start` at the dispatched character. -/
lemma nextAux_identifier {s : List Char} {pos : Nat} (start : Nat) (h : pos < s.length)
    (hd : isalpha s[pos] = true) :
    nextAux s pos start =
      ((Lexer.identifier s (pos + 1) pos).1, (Lexer.identifier s (pos + 1) pos).2, pos) := by
  have hsp := isalpha_not_special hd
  rw [nextAux_eq, dif_pos h, if_neg hsp.1, if_neg (fun hc => hsp.2 hc.1), if_pos hd]

/-- Dispatch on a decimal digit: the call runs the number sub-scan with
`m_start` at the dispatched character. -/
lemma nextAux_number {s : List Char} {pos : Nat} (start : Nat) (h : pos < s.length)
    (hd : isnumber s[pos] = true) :
    nextAux s pos start =
      ((Lexer.number s (pos + 1) pos).1, (Lexer.number s (pos + 1) pos).2, pos) := by
  have hsp := isnumber_not_special hd
  rw [nextAux_eq, dif_pos h, if_neg hsp.1, if_neg (fun hc => hsp.2.1 hc.1),
    if_neg (by simp [hsp.2.2]), if_pos hd]

/-- Dispatch on a character that is not whitespace, not a slash, not
alphabetic and not a digit: the call runs the operator switch. -/
lemma nextAux_op {s : List Char} {pos : Nat} (start : Nat) (h : pos < s.length)
    (hws : ¬(s[pos] = ' ' ∨ s[pos] = '\n' ∨ s[pos] = '\r' ∨ s[pos] = '\t'))
    (hsl : s[pos] ≠ '/') (ha : isalpha s[pos] = false) (hn : isnumber s[pos] = false) :
    nextAux s pos start =
      ({ type := (opSwitch s[pos] (s.getD (pos + 1) '\x00') (pos + 1)).1,
         value := String.mk
           (strSlice s pos (opSwitch s[pos] (s.getD (pos + 1) '\x00') (pos + 1)).2) },
       (opSwitch s[pos] (s.getD (pos + 1) '\x00') (pos + 1)).2, pos) := by
  rw [nextAux_eq, dif_pos h, if_neg hws, if_neg (fun hc => hsl hc.1),
    if_neg (by simp [ha]), if_neg (by simp [hn])]

/-- `Lexer::next` on an operator-switch character, phrased on the lexer
state. -/
lemma op_dispatch {s : List Char} {pos : Nat} (start : Nat) (h : pos < s.length)
    {c : Char} (hc : s[pos] = c)
    (hws : ¬(c = ' ' ∨ c = '\n' ∨ c = '\r' ∨ c = '\t')) (hsl : c ≠ '/')
    (ha : isalpha c = false) (hn : isnumber c = false) :
    Lexer.next ⟨s, pos, start⟩ =
      ({ type := (opSwitch c (s.getD (pos + 1) '\x00') (pos + 1)).1,
         value := String.mk (strSlice s pos (opSwitch c (s.getD (pos + 1) '\x00') (pos + 1)).2) },
       ⟨s, (opSwitch c (s.getD (pos + 1) '\x00') (pos + 1)).2, pos⟩) := by
  rw [Lexer.next_eq]
  dsimp only
  rw [nextAux_op start h (by rw [hc]; exact hws) (by rw [hc]; exact hsl)
    (by rw [hc]; exact ha) (by rw [hc]; exact hn)]
  rw [hc]

/-- A character outside the recognized operator set falls into the
`default` case of the switch: an `Invalid` token of one character. -/
lemma opSwitch_invalid {c : Char}
    (hop : c ∉ (['=', '*', '/', '+', '-', '>', '<', '\x7b', '\x7d',
      '(', ')', ',', ':', ';'] : List Char)) (nextc : Char) (pos1 : Nat) :
    opSwitch c nextc pos1 = (TokenType.Invalid, pos1) := by
  simp only [List.mem_cons, List.not_mem_nil, or_false, not_or] at hop
  obtain ⟨h1, h2, h3, h4, h5, h6, h7, h8, h9, h10, h11, h12, h13, h14⟩ := hop
  unfold opSwitch
  rw [if_neg h1, if_neg h2, if_neg h3, if_neg h4, if_neg h5, if_neg h6, if_neg h7,
    if_neg h8, if_neg h9, if_neg h10, if_neg h11, if_neg h12, if_neg h13, if_neg h14]

/-! ## The claims -/

/-- C1: maximal munch for the two-character operators.  At every
position where the scanner dispatches on an equals sign, a greater-than
or a less-than, if the immediately following character is an equals sign
(the lookahead `next` of the code, `NUL` when out of bounds) then one
call of `Lexer::next` consumes both characters and returns a single
`Equal`, `GreaterEqual` or `LesserEqual` token; otherwise it consumes
one character and returns `Assign`, `Greater` or `Lesser`.  In
particular the input consisting of two equals signs yields one `Equal`
token (not two `Assign` tokens), a greater-than followed by an equals
sign yields one `GreaterEqual` token, and a greater-than, a space and an
equals sign yield `Greater` followed by `Assign`. -/
theorem C1_maximal_munch (s : List Char) (pos start : Nat) (h : pos < s.length) :
    ((s[pos] = '=' ∧ s.getD (pos + 1) '\x00' = '=') →
        Lexer.next ⟨s, pos, start⟩ =
          ({ type := TokenType.Equal, value := "==" }, ⟨s, pos + 2, pos⟩)) ∧
      ((s[pos] = '=' ∧ s.getD (pos + 1) '\x00' ≠ '=') →
        Lexer.next ⟨s, pos, start⟩ =
          ({ type := TokenType.Assign, value := "=" }, ⟨s, pos + 1, pos⟩)) ∧
      ((s[pos] = '>' ∧ s.getD (pos + 1) '\x00' = '=') →
        Lexer.next ⟨s, pos, start⟩ =
          ({ type := TokenType.GreaterEqual, value := ">=" }, ⟨s, pos + 2, pos⟩)) ∧
      ((s[pos] = '>' ∧ s.getD (pos + 1) '\x00' ≠ '=') →
        Lexer.next ⟨s, pos, start⟩ =
          ({ type := TokenType.Greater, value := ">" }, ⟨s, pos + 1, pos⟩)) ∧
      ((s[pos] = '<' ∧ s.getD (pos + 1) '\x00' = '=') →
        Lexer.next ⟨s, pos, start⟩ =
          ({ type := TokenType.LesserEqual, value := "<=" }, ⟨s, pos + 2, pos⟩)) ∧
      ((s[pos] = '<' ∧ s.getD (pos + 1) '\x00' ≠ '=') →
        Lexer.next ⟨s, pos, start⟩ =
          ({ type := TokenType.Lesser, value := "<" }, ⟨s, pos + 1, pos⟩)) ∧
      scan ("==") = [{ type := TokenType.Equal, value := "==" },
        { type := TokenType.EndOfInput, value := "" }] ∧
      scan (">=") = [{ type := TokenType.GreaterEqual, value := ">=" },
        { type := TokenType.EndOfInput, value := "" }] ∧
      scan ("> =") = [{ type := TokenType.Greater, value := ">" },
        { type := TokenType.Assign, value := "=" },
        { type := TokenType.EndOfInput, value := "" }] := by
  refine ⟨?_, ?_, ?_, ?_, ?_, ?_, by decide, by decide, by decide⟩
  · rintro ⟨hc, hn⟩
    have h2 := lookahead_eq_imp_lt hn
    have hs1 : s[pos + 1] = '=' := by rw [← getD_eq_getElem h2 '\x00', hn]
    rw [op_dispatch start h hc (by decide) (by decide) (by decide) (by decide), hn]
    rw [show opSwitch '=' '=' (pos + 1) = (TokenType.Equal, pos + 2) from rfl]
    dsimp only
    rw [strSlice_two h2, hc, hs1]
  · rintro ⟨hc, hn⟩
    rw [op_dispatch start h hc (by decide) (by decide) (by decide) (by decide)]
    have hsw : opSwitch '=' (s.getD (pos + 1) '\x00') (pos + 1) =
        (TokenType.Assign, pos + 1) := by
      unfold opSwitch
      rw [if_pos rfl, if_neg hn]
    rw [hsw]
    dsimp only
    rw [strSlice_one h, hc]
  · rintro ⟨hc, hn⟩
    have h2 := lookahead_eq_imp_lt hn
    have hs1 : s[pos + 1] = '=' := by rw [← getD_eq_getElem h2 '\x00', hn]
    rw [op_dispatch start h hc (by decide) (by decide) (by decide) (by decide), hn]
    rw [show opSwitch '>' '=' (pos + 1) = (TokenType.GreaterEqual, pos + 2) from rfl]
    dsimp only
    rw [strSlice_two h2, hc, hs1]
  · rintro ⟨hc, hn⟩
    rw [op_dispatch start h hc (by decide) (by decide) (by decide) (by decide)]
    have hsw : opSwitch '>' (s.getD (pos + 1) '\x00') (pos + 1) =
        (TokenType.Greater, pos + 1) := by
      unfold opSwitch
      rw [if_neg (by decide), if_neg (by decide), if_neg (by decide), if_neg (by decide),
        if_neg (by decide), if_pos rfl, if_neg hn]
    rw [hsw]
    dsimp only
    rw [strSlice_one h, hc]
  · rintro ⟨hc, hn⟩
    have h2 := lookahead_eq_imp_lt hn
    have hs1 : s[pos + 1] = '=' := by rw [← getD_eq_getElem h2 '\x00', hn]
    rw [op_dispatch start h hc (by decide) (by decide) (by decide) (by decide), hn]
    rw [show opSwitch '<' '=' (pos + 1) = (TokenType.LesserEqual, pos + 2) from rfl]
    dsimp only
    rw [strSlice_two h2, hc, hs1]
  · rintro ⟨hc, hn⟩
    rw [op_dispatch start h hc (by decide) (by decide) (by decide) (by decide)]
    have hsw : opSwitch '<' (s.getD (pos + 1) '\x00') (pos + 1) =
        (TokenType.Lesser, pos + 1) := by
      unfold opSwitch
      rw [if_neg (by decide), if_neg (by decide), if_neg (by decide), if_neg (by decide),
        if_neg (by decide), if_neg (by decide), if_pos rfl, if_neg hn]
    rw [hsw]
    dsimp only
    rw [strSlice_one h, hc]

/-- Witness for C1 at the concrete input of two equals signs. -/
theorem C1_witness :
    Lexer.next ⟨['=', '='], 0, 0⟩ =
      ({ type := TokenType.Equal, value := "==" }, ⟨['=', '='], 2, 0⟩) :=
  (C1_maximal_munch ['=', '='] 0 0 (by decide)).1 ⟨by decide, by decide⟩

/-- C2: round-trip coverage.  For every source string, concatenating, in
source order, the whitespace/comment span skipped by each `Lexer::next`
call together with the lexeme it emits (through the run ending at the
first end-of-input sentinel, whose lexeme is empty) reconstructs the
source exactly; and the lexemes so listed are exactly the lexemes of the
tokens of the scan.  No character of the source is silently dropped. -/
theorem C2_round_trip (source : String) :
    concatPieces (piecesFuel (source.data.length + 1) source.data 0 0) = source.data ∧
      (piecesFuel (source.data.length + 1) source.data 0 0).map Prod.snd =
        (scan source).map (fun t => t.value.data) := by
  constructor
  · rw [piecesFuel_concat source.data (source.data.length + 1) 0 0 (Nat.zero_le _) (by omega)]
    simp [strSlice]
  · exact piecesFuel_lexemes (source.data.length + 1) source.data 0 0

/-- C3: keyword precedence.  For the identifier sub-scan of the lexer:
whenever the produced lexeme is a reserved spelling of the keyword table
(exact, case-sensitive lookup), the returned token has that keyword's
kind — never `Identifier`; whenever the lexeme is not in the table, the
kind is `Identifier`.  Moreover `Lexer::next` hands every alphabetic
dispatch character to exactly this sub-scan. -/
theorem C3_keyword_precedence (s : List Char) (pos start : Nat) :
    (∀ k, List.lookup (Lexer.identifier s pos start).1.value keywordMap = some k →
        (Lexer.identifier s pos start).1.type = k ∧
          (Lexer.identifier s pos start).1.type ≠ TokenType.Identifier) ∧
      (List.lookup (Lexer.identifier s pos start).1.value keywordMap = none →
        (Lexer.identifier s pos start).1.type = TokenType.Identifier) ∧
      (∀ p ∈ keywordMap, p.2 ≠ TokenType.Identifier) ∧
      (∀ h : pos < s.length, isalpha s[pos] = true →
        Lexer.next ⟨s, pos, start⟩ =
          ((Lexer.identifier s (pos + 1) pos).1,
           ⟨s, (Lexer.identifier s (pos + 1) pos).2, pos⟩)) := by
  refine ⟨?_, ?_, by decide, ?_⟩
  · intro k hk
    have ht : (Lexer.identifier s pos start).1.type =
        (List.lookup (String.mk (strSlice s start (alnumEnd s pos)))
          keywordMap).getD TokenType.Identifier := rfl
    rw [identifier_value] at hk
    constructor
    · rw [ht, hk]
      rfl
    · rw [ht, hk]
      exact (keyword_kind_ne hk).1
  · intro hnone
    have ht : (Lexer.identifier s pos start).1.type =
        (List.lookup (String.mk (strSlice s start (alnumEnd s pos)))
          keywordMap).getD TokenType.Identifier := rfl
    rw [identifier_value] at hnone
    rw [ht, hnone]
    rfl
  · intro h hd
    rw [Lexer.next_eq]
    dsimp only
    rw [nextAux_identifier start h hd]

/-- Witness for C3 at the lexeme of the reserved word for machine
integers. -/
theorem C3_witness :
    (Lexer.identifier ['i', 'n', 't'] 1 0).1.type = TokenType.Int ∧
      (Lexer.identifier ['i', 'n', 't'] 1 0).1.type ≠ TokenType.Identifier :=
  (C3_keyword_precedence ['i', 'n', 't'] 1 0).1 TokenType.Int (by decide)

/-- C4: idempotent terminal state.  Once the cursor has reached the end
of the source, every further `Lexer::next` call returns the end-of-input
sentinel with an empty lexeme and leaves the state (position and start
marker included) completely unchanged. -/
theorem C4_eoi_idempotent (st : LexerState) (h : st.m_source.length ≤ st.m_pos) :
    (∀ n, Lexer.next (iterState st n) =
        ({ type := TokenType.EndOfInput, value := "" }, iterState st n)) ∧
      (∀ n, iterState st n = st) := by
  have hstable := iter_stable h
  refine ⟨fun n => ?_, hstable⟩
  rw [hstable n, eoi_stable h]

/-- Witness for C4 on a terminal state over a two-character source. -/
theorem C4_witness :
    Lexer.next (iterState ⟨['a', 'b'], 5, 1⟩ 3) =
        ({ type := TokenType.EndOfInput, value := "" }, iterState ⟨['a', 'b'], 5, 1⟩ 3) ∧
      iterState ⟨['a', 'b'], 5, 1⟩ 3 = ⟨['a', 'b'], 5, 1⟩ :=
  ⟨(C4_eoi_idempotent ⟨['a', 'b'], 5, 1⟩ (by decide)).1 3,
   (C4_eoi_idempotent ⟨['a', 'b'], 5, 1⟩ (by decide)).2 3⟩

/-- C5: invalid characters are recoverable data, never errors.  On a
dispatch character that is not whitespace, not alphabetic, not a digit,
and not one of the recognized operator/punctuation characters (the
slash, a comment starter, is in that set), `Lexer::next` returns a
normal token of kind `Invalid` whose lexeme is exactly that one
character, and the cursor advances past it so scanning resumes at the
following position; being a total function, the call has no other
outcome. -/
theorem C5_invalid_char (s : List Char) (pos start : Nat) (h : pos < s.length)
    (hws : ¬(s[pos] = ' ' ∨ s[pos] = '\n' ∨ s[pos] = '\r' ∨ s[pos] = '\t'))
    (ha : isalpha s[pos] = false) (hn : isnumber s[pos] = false)
    (hop : s[pos] ∉ (['=', '*', '/', '+', '-', '>', '<', '\x7b', '\x7d',
      '(', ')', ',', ':', ';'] : List Char)) :
    Lexer.next ⟨s, pos, start⟩ =
      ({ type := TokenType.Invalid, value := String.mk [s[pos]] }, ⟨s, pos + 1, pos⟩) := by
  have hsl : s[pos] ≠ '/' := by
    intro hc
    apply hop
    rw [hc]
    decide
  rw [op_dispatch start h rfl hws hsl ha hn, opSwitch_invalid hop]
  dsimp only
  rw [strSlice_one h]

/-- Witness for C5 at the hash character of spec Scenario 3. -/
theorem C5_witness :
    Lexer.next ⟨['#'], 0, 0⟩ =
      ({ type := TokenType.Invalid, value := "#" }, ⟨['#'], 1, 0⟩) :=
  C5_invalid_char ['#'] 0 0 (by decide) (by decide) (by decide) (by decide) (by decide)

/-- C6: totality and termination.  For every finite source, the token
sequence of repeated `Lexer::next` calls reaches the end-of-input
sentinel within `length` calls: there is a first sentinel index, every
call before it returns a non-sentinel token, and every call from it on
returns the sentinel (which then repeats indefinitely).  Each individual
call is a total Lean function, hence terminates. -/
theorem C6_totality (source : String) :
    ∃ n, n ≤ source.data.length ∧
      (∀ m, m < n → (tokenAt (Lexer.init source) m).type ≠ TokenType.EndOfInput) ∧
      (∀ m, n ≤ m → tokenAt (Lexer.init source) m =
        { type := TokenType.EndOfInput, value := "" }) :=
  exists_firstEoi source.data.length (Lexer.init source) (Nat.zero_le _) (Nat.sub_le _ _)

/-- C7: end-to-end scenario.  Scanning the declaration of a one-line
function named fib produces exactly the expected token sequence,
terminated by the end-of-input sentinel. -/
theorem C7_scenario :
    scan ("function fib(int n) : int \x7b return 1; \x7d") =
      [ { type := TokenType.Function, value := "function" },
        { type := TokenType.Identifier, value := "fib" },
        { type := TokenType.ParenOpen, value := "(" },
        { type := TokenType.Int, value := "int" },
        { type := TokenType.Identifier, value := "n" },
        { type := TokenType.ParenClose, value := ")" },
        { type := TokenType.Colon, value := ":" },
        { type := TokenType.Int, value := "int" },
        { type := TokenType.BraceOpen, value := "\x7b" },
        { type := TokenType.Return, value := "return" },
        { type := TokenType.IntegerLiteral, value := "1" },
        { type := TokenType.SemiColon, value := ";" },
        { type := TokenType.BraceClose, value := "\x7d" },
        { type := TokenType.EndOfInput, value := "" } ] := by
  decide

/-- C8: number scan.  On a decimal-digit dispatch character,
`Lexer::next` consumes the maximal run of consecutive decimal digits
starting there and returns a single `IntegerLiteral` token whose lexeme
is exactly that digit run (every character of the consumed span is a
digit, and the first character after the span, if any, is not).  A minus
sign immediately preceding a digit run is never fused into the literal:
dispatching on it returns a separate one-character `Minus` token. -/
theorem C8_number_scan (s : List Char) (pos start : Nat) (h : pos < s.length) :
    (isnumber s[pos] = true →
        Lexer.next ⟨s, pos, start⟩ =
          ({ type := TokenType.IntegerLiteral,
             value := String.mk (strSlice s pos (digitEnd s (pos + 1))) },
           ⟨s, digitEnd s (pos + 1), pos⟩) ∧
        pos < digitEnd s (pos + 1) ∧ digitEnd s (pos + 1) ≤ s.length ∧
        (∀ i, pos ≤ i → i < digitEnd s (pos + 1) → isnumber (s.getD i ' ') = true) ∧
        (digitEnd s (pos + 1) < s.length →
          isnumber (s.getD (digitEnd s (pos + 1)) ' ') = false)) ∧
      (s[pos] = '-' →
        Lexer.next ⟨s, pos, start⟩ =
          ({ type := TokenType.Minus, value := "-" }, ⟨s, pos + 1, pos⟩)) := by
  constructor
  · intro hd
    refine ⟨?_, ?_, ?_, ?_, ?_⟩
    · rw [Lexer.next_eq]
      dsimp only
      rw [nextAux_number start h hd]
      dsimp only
      rw [number_fst, number_snd]
    · have := digitEnd_ge s (pos + 1)
      omega
    · exact digitEnd_le (by omega)
    · intro i hi1 hi2
      rcases Nat.eq_or_lt_of_le hi1 with rfl | hlt
      · rw [getD_eq_getElem h]
        exact hd
      · exact digitEnd_all s (s.length - (pos + 1)) (pos + 1) (le_refl _) i (by omega) hi2
    · intro hb
      exact digitEnd_boundary s (s.length - (pos + 1)) (pos + 1) (le_refl _) hb
  · intro hm
    rw [op_dispatch start h hm (by decide) (by decide) (by decide) (by decide)]
    have hsw : opSwitch '-' (s.getD (pos + 1) '\x00') (pos + 1) =
        (TokenType.Minus, pos + 1) := by
      unfold opSwitch
      rw [if_neg (by decide), if_neg (by decide), if_neg (by decide), if_neg (by decide),
        if_pos rfl]
    rw [hsw]
    dsimp only
    rw [strSlice_one h, hm]

/-- Witness for C8 at a two-digit literal. -/
theorem C8_witness :
    Lexer.next ⟨['4', '2'], 0, 0⟩ =
      ({ type := TokenType.IntegerLiteral, value := "42" }, ⟨['4', '2'], 2, 0⟩) := by
  have hw := ((C8_number_scan ['4', '2'] 0 0 (by decide)).1 (by decide)).1
  exact hw

/-- C9: the `line` and `column` members declared in the `Token` record
are never assigned by the scanner: every return site initializes only
the kind and the lexeme, leaving the position members value-initialized
to zero, so every token of every call carries `line = 0` and
`column = 0`. -/
theorem C9_line_col_zero (st : LexerState) (n : Nat) :
    (tokenAt st n).line = 0 ∧ (tokenAt st n).column = 0 := by
  unfold tokenAt
  rw [Lexer.next_eq]
  exact nextAux_line_col _ _ _

/-- C10: cursor invariant.  Starting from the constructed state, after
every number of `Lexer::next` calls the state satisfies
`m_start ≤ m_pos ≤ length`, and `m_pos` never decreases from one call
to the next. -/
theorem C10_cursor_invariant (source : String) (n : Nat) :
    (iterState (Lexer.init source) n).m_start ≤ (iterState (Lexer.init source) n).m_pos ∧
      (iterState (Lexer.init source) n).m_pos ≤ source.data.length ∧
      (iterState (Lexer.init source) n).m_pos ≤
        (iterState (Lexer.init source) (n + 1)).m_pos := by
  have hn := @iter_inv (Lexer.init source) (le_refl 0) (Nat.zero_le _) n
  refine ⟨hn.1, ?_, ?_⟩
  · have h2 := hn.2
    rw [iter_source] at h2
    exact h2
  · have hstep := @next_inv (iterState (Lexer.init source) n) hn.1 hn.2
    rw [iterState_succ_right]
    exact hstep.2.2

end AdvLexer
